import Mathlib

/-!
Shallow embedding of the accounting and ranking core of `src/main.py`
(WhaleWinRateBot V2): position tracking with epsilon snapping, realized-PnL
recording, idempotent swap ingestion, lifetime/windowed statistics and the
long-term-winner discovery job.

Float amounts are modelled as exact rationals (`ℚ`); the SQLite tables are
modelled as explicit state: the `positions` table (PRIMARY KEY (wallet,
token_mint)) as a total map defaulting to `(0, 0)` — the code reads an absent
row as `(0, 0)` everywhere — and the append-only `swaps` / `realized` tables
as lists.  SQL `ROUND(x, 2)` is `round2`, `ORDER BY a DESC, b DESC` is a
stable sort by `statOrder`, and `GROUP BY wallet` is grouping over the
deduplicated wallet column.
-/

namespace WhaleBot

/-- The 1e-9 dust threshold from `upsert_position` (`abs(x) < 1e-9`). -/
def eps : ℚ := 1 / 1000000000

/-- Epsilon snapping: `if abs(x) < 1e-9: x = 0.0` in `upsert_position`. -/
def snap (x : ℚ) : ℚ := if |x| < eps then 0 else x

/-- One row of the `positions` table: `qty REAL, cost_base REAL`. -/
structure Position where
  qty : ℚ
  cost_base : ℚ
deriving DecidableEq, Repr

/-- One row of the `swaps` table. -/
structure SwapRow where
  signature : String
  ts : ℤ
  wallet : String
  direction : String
  base_mint : String
  base_amount : ℚ
  token_mint : String
  token_amount : ℚ
deriving DecidableEq, Repr

/-- One row of the `realized` table. -/
structure RealizedRow where
  ts : ℤ
  wallet : String
  token_mint : String
  pnl_base : ℚ
  base_mint : String
  is_win : Bool
deriving DecidableEq, Repr

/-- The ledger-store state: the five tables of `init_db` (the `follows` and
`announced` tables keyed by wallet are sets modelled as duplicate-free
lists). -/
structure St where
  positions : String → String → Position
  swaps : List SwapRow
  realized : List RealizedRow
  follows : List String
  announced : List String

/-- A fresh database: every position row absent (read back as `(0,0)`). -/
def emptySt : St :=
  { positions := fun _ _ => ⟨0, 0⟩
    swaps := []
    realized := []
    follows := []
    announced := [] }

/-- A state whose every position row is `(q, c)`; used to set up concrete
scenarios for a single `(wallet, token)` pair. -/
def stWithPos (q c : ℚ) : St :=
  { positions := fun _ _ => ⟨q, c⟩
    swaps := []
    realized := []
    follows := []
    announced := [] }

/-- `upsert_position` (src/main.py:200-221): read the current `(qty, cost)`
for the pair (absent row = `(0,0)`), add the deltas, snap magnitudes below
1e-9 to exactly zero, and write back. -/
def upsert_position (st : St) (wallet token_mint : String)
    (qty_delta base_delta : ℚ) : St :=
  let p := st.positions wallet token_mint
  let qty_new := snap (p.qty + qty_delta)
  let cost_new := snap (p.cost_base + base_delta)
  { st with
    positions := fun w t =>
      if w = wallet ∧ t = token_mint then ⟨qty_new, cost_new⟩
      else st.positions w t }

/-- `realize_sell` (src/main.py:223-245): guard on degenerate sells, else
realize `baseReceived - cost * min(1, sellQty/qty)`, reduce the position and
append a `realized` row with `is_win = (pnl > 0)`. -/
def realize_sell (st : St) (wallet token_mint : String)
    (sell_qty base_received : ℚ) (base_mint : String) (now : ℤ) : St × ℚ :=
  let p := st.positions wallet token_mint
  if sell_qty ≤ 0 ∨ base_received ≤ 0 ∨ p.qty ≤ 0 then
    (upsert_position st wallet token_mint (-sell_qty) 0, 0)
  else
    let portion := min 1 (sell_qty / p.qty)
    let cost_portion := p.cost_base * portion
    let pnl := base_received - cost_portion
    let st' := upsert_position st wallet token_mint (-sell_qty) (-cost_portion)
    ({ st' with
        realized := st'.realized ++
          [⟨now, wallet, token_mint, pnl, base_mint, decide (0 < pnl)⟩] },
      pnl)

/-- `insert_swap` (src/main.py:247-256): the UNIQUE constraint on `signature`
makes a duplicate insert fail with no effect (`inserted = false`). -/
def insert_swap (st : St) (row : SwapRow) : St × Bool :=
  if st.swaps.any (fun s => s.signature == row.signature) then (st, false)
  else ({ st with swaps := st.swaps ++ [row] }, true)

/-- The per-record body of `helius_webhook` (src/main.py:356-375) for one
normalized Swap Record: insert the swap (dedup by signature; on duplicate,
stop with no further effects), then dispatch BUY to `upsert_position` and
SELL to `realize_sell`. -/
def ingest (st : St) (row : SwapRow) (now : ℤ) : St × Bool :=
  match insert_swap st row with
  | (st1, false) => (st1, false)
  | (st1, true) =>
    if row.direction == "BUY" then
      (upsert_position st1 row.wallet row.token_mint row.token_amount
        row.base_amount, true)
    else
      ((realize_sell st1 row.wallet row.token_mint row.token_amount
        row.base_amount row.base_mint now).1, true)

/-- A sequence of BUY deltas `(tokenAmount, baseAmount)` applied to one
`(wallet, token)` pair, each as `upsert_position` does on BUY
(src/main.py:368-369). -/
def applyBuys (st : St) (wallet token_mint : String)
    (buys : List (ℚ × ℚ)) : St :=
  buys.foldl (fun s b => upsert_position s wallet token_mint b.1 b.2) st

/-- A sequence of SELLs `(sellQty, baseReceived)` applied to one
`(wallet, token)` pair through `realize_sell`. -/
def applySells (st : St) (wallet token_mint base_mint : String)
    (sells : List (ℚ × ℚ)) (now : ℤ) : St :=
  sells.foldl (fun s x => (realize_sell s wallet token_mint x.1 x.2 base_mint now).1) st

/-! ### Statistics engine (src/main.py:418-455) -/

/-- SQL `ROUND(x, 2)`: round to two decimal places (exact on the
nonnegative values all claims use it on). -/
def round2 (x : ℚ) : ℚ := ((round (x * 100) : ℤ) : ℚ) / 100

/-- `SUM(is_win)` over a group of realized rows. -/
def winsOf (rs : List RealizedRow) : ℕ := (rs.filter (·.is_win)).length

/-- `SUM(pnl_base)` over a group of realized rows. -/
def pnlSumOf (rs : List RealizedRow) : ℚ := (rs.map (·.pnl_base)).sum

/-- The distinct wallets of the `realized` table (`GROUP BY wallet`). -/
def walletsOf (rs : List RealizedRow) : List String := (rs.map (·.wallet)).dedup

/-- One output row of the grouped aggregation queries. -/
structure GroupStats where
  wallet : String
  wins : ℕ
  trades : ℕ
  win_rate_pct : ℚ
  pnl_sum : ℚ
  tokens : ℕ
deriving DecidableEq, Repr

/-- The aggregates of one wallet group: `SUM(is_win)`, `COUNT(*)`,
`ROUND(100.0*SUM(is_win)/COUNT(*),2)`, `ROUND(SUM(pnl_base),2)`,
`COUNT(DISTINCT token_mint)`. -/
def groupStats (rs : List RealizedRow) (w : String) : GroupStats :=
  let g := rs.filter (fun r => r.wallet == w)
  { wallet := w
    wins := winsOf g
    trades := g.length
    win_rate_pct := round2 (100 * (winsOf g : ℚ) / (g.length : ℚ))
    pnl_sum := round2 (pnlSumOf g)
    tokens := ((g.map (·.token_mint)).dedup).length }

/-- `ORDER BY win_rate_pct DESC, pnl_sum DESC`. -/
def statOrder (a b : GroupStats) : Prop :=
  b.win_rate_pct < a.win_rate_pct ∨
    (a.win_rate_pct = b.win_rate_pct ∧ b.pnl_sum ≤ a.pnl_sum)

instance : DecidableRel statOrder := fun _ _ => instDecidableOr

/-- `get_top_wallets` (src/main.py:418-436): group `realized` by wallet,
keep groups with `trades >= min_trades`, order by win rate then PnL
descending, return the first `limit`. -/
def get_top_wallets (rs : List RealizedRow) (min_trades limit : ℕ) :
    List GroupStats :=
  ((((walletsOf rs).map (groupStats rs)).filter
      (fun g => min_trades ≤ g.trades)).insertionSort statOrder).take limit

/-- `get_window_stats` (src/main.py:438-455): the same grouping restricted to
`ts >= now - days*86400`, with no trade floor and no limit. -/
def get_window_stats (rs : List RealizedRow) (now : ℤ) (days : ℕ) :
    List GroupStats :=
  let since := now - (days : ℤ) * 86400
  let inWin := rs.filter (fun r => decide (since ≤ r.ts))
  (((walletsOf inWin).map (groupStats inWin))).insertionSort statOrder

/-! ### Discovery (src/main.py:457-538) -/

/-- The nine discovery thresholds (`D30_*`, `D90_*`, `LIFE_*`). -/
structure Config where
  d30_min_trades : ℕ
  d30_min_winrate : ℚ
  d30_min_pnl : ℚ
  d90_min_trades : ℕ
  d90_min_winrate : ℚ
  d90_min_pnl : ℚ
  life_min_trades : ℕ
  life_min_winrate : ℚ
  life_min_pnl : ℚ

/-- One discovered winner: the wallet with its lifetime, 30d and 90d rows. -/
structure Winner where
  wallet : String
  life : GroupStats
  d30 : GroupStats
  d90 : GroupStats
deriving DecidableEq, Repr

/-- `filter_long_term_winners` (src/main.py:457-494): intersect the lifetime
list (`get_top_wallets 1 100000`) with the 30-day and 90-day window maps,
keeping wallets that clear all nine thresholds; a wallet absent from either
window map is skipped. -/
def filter_long_term_winners (rs : List RealizedRow) (now : ℤ)
    (cfg : Config) : List Winner :=
  let life := get_top_wallets rs 1 100000
  let d30 := get_window_stats rs now 30
  let d90 := get_window_stats rs now 90
  life.filterMap (fun lr =>
    if lr.trades < cfg.life_min_trades ∨ lr.win_rate_pct < cfg.life_min_winrate
        ∨ lr.pnl_sum < cfg.life_min_pnl then
      none
    else
      match d30.find? (fun g => g.wallet == lr.wallet),
            d90.find? (fun g => g.wallet == lr.wallet) with
      | some r30, some r90 =>
        if cfg.d30_min_trades ≤ r30.trades
            ∧ cfg.d30_min_winrate ≤ r30.win_rate_pct
            ∧ cfg.d30_min_pnl ≤ r30.pnl_sum
            ∧ cfg.d90_min_trades ≤ r90.trades
            ∧ cfg.d90_min_winrate ≤ r90.win_rate_pct
            ∧ cfg.d90_min_pnl ≤ r90.pnl_sum then
          some ⟨lr.wallet, lr, r30, r90⟩
        else none
      | _, _ => none)

/-- `INSERT OR REPLACE` into a wallet-keyed set table. -/
def insertOrReplace (l : List String) (w : String) : List String :=
  if w ∈ l then l else l ++ [w]

/-- The loop body of `discovery_job` for one new winner: optionally
auto-follow it, then mark it announced. -/
def discovery_mark (auto_follow : Bool) (s : St) (w : Winner) : St :=
  let s1 := if auto_follow
    then { s with follows := insertOrReplace s.follows w.wallet }
    else s
  { s1 with announced := insertOrReplace s1.announced w.wallet }

/-- `discovery_job` (src/main.py:507-538): compute the winners, drop those
already in `announced`, then for each new winner optionally auto-follow it
and mark it announced; the emitted wallets are returned. -/
def discovery_job (st : St) (now : ℤ) (cfg : Config) (auto_follow : Bool) :
    St × List String :=
  let winners := filter_long_term_winners st.realized now cfg
  let new_winners := winners.filter (fun w => decide (w.wallet ∉ st.announced))
  let st' := new_winners.foldl (discovery_mark auto_follow) st
  (st', new_winners.map (·.wallet))

/-! ### Basic lemmas about snapping and position updates -/

lemma eps_pos : 0 < eps := by norm_num [eps]

lemma snap_zero : snap 0 = 0 := by simp [snap, eps_pos]

lemma snap_of_eps_le {x : ℚ} (h : eps ≤ |x|) : snap x = x := by
  simp only [snap, if_neg (not_lt.mpr h)]

lemma snap_nonpos {x : ℚ} (h : x ≤ 0) : snap x ≤ 0 := by
  unfold snap
  split <;> simp [h]

lemma snap_eq_self_of_invariant {x : ℚ} (h : x = 0 ∨ eps ≤ x) : snap x = x := by
  rcases h with h | h
  · rw [h, snap_zero]
  · exact snap_of_eps_le (le_trans h (le_abs_self x))

lemma upsert_position_self (st : St) (w t : String) (qd bd : ℚ) :
    (upsert_position st w t qd bd).positions w t
      = ⟨snap ((st.positions w t).qty + qd),
         snap ((st.positions w t).cost_base + bd)⟩ := by
  simp [upsert_position]

lemma upsert_position_realized (st : St) (w t : String) (qd bd : ℚ) :
    (upsert_position st w t qd bd).realized = st.realized := rfl

lemma upsert_position_swaps (st : St) (w t : String) (qd bd : ℚ) :
    (upsert_position st w t qd bd).swaps = st.swaps := rfl

/-! ### C1: full exit -/

/-- C1. For a position with `qty = q > 0` and cost basis `C`, a SELL with
`sellQty = q` and `baseReceived = br > 0` returns exactly `br - C`, drives the
position's quantity and cost basis to exactly zero, and appends exactly one
realized row whose pnl is the returned value and whose win flag is true iff
the pnl is positive. -/
theorem full_exit (st : St) (w t bm : String) (now : ℤ) (q C br : ℚ)
    (hpos : st.positions w t = ⟨q, C⟩) (hq : 0 < q) (hbr : 0 < br) :
    (realize_sell st w t q br bm now).2 = br - C
    ∧ (realize_sell st w t q br bm now).1.positions w t = (⟨0, 0⟩ : Position)
    ∧ (realize_sell st w t q br bm now).1.realized
        = st.realized ++ [⟨now, w, t, br - C, bm, decide (0 < br - C)⟩]
    ∧ ((decide (0 < br - C) : Bool) = true ↔ 0 < br - C) := by
  have hqne : q ≠ 0 := hq.ne'
  have hguard : ¬(q ≤ 0 ∨ br ≤ 0 ∨ (st.positions w t).qty ≤ 0) := by
    rw [hpos]
    simp only [not_or, not_le]
    exact ⟨hq, hbr, hq⟩
  have hmin : min (1 : ℚ) (q / (st.positions w t).qty) = 1 := by
    rw [hpos]
    show min (1 : ℚ) (q / q) = 1
    rw [div_self hqne, min_self]
  have hcp : (st.positions w t).cost_base * min (1 : ℚ) (q / (st.positions w t).qty) = C := by
    rw [hmin, hpos, mul_one]
  simp only [realize_sell, if_neg hguard, hcp, upsert_position_realized]
  refine ⟨by trivial, ?_, by trivial, by simp⟩
  rw [upsert_position_self, hpos]
  show (⟨snap (q + -q), snap (C + -C)⟩ : Position) = ⟨0, 0⟩
  rw [add_neg_cancel, add_neg_cancel, snap_zero]

/-- Witness for C1: a position of 100 tokens costing 50, fully exited for 80,
realizes 30 and zeroes the position. -/
theorem full_exit_witness :
    (stWithPos 100 50).positions "W1" "T" = (⟨100, 50⟩ : Position)
    ∧ (0 : ℚ) < 100 ∧ (0 : ℚ) < 80
    ∧ ((realize_sell (stWithPos 100 50) "W1" "T" 100 80 "USDC" 0).2 = 80 - 50
       ∧ (realize_sell (stWithPos 100 50) "W1" "T" 100 80 "USDC" 0).1.positions "W1" "T"
           = (⟨0, 0⟩ : Position)
       ∧ (realize_sell (stWithPos 100 50) "W1" "T" 100 80 "USDC" 0).1.realized
           = (stWithPos 100 50).realized
             ++ [⟨0, "W1", "T", 80 - 50, "USDC", decide ((0 : ℚ) < 80 - 50)⟩]
       ∧ ((decide ((0 : ℚ) < 80 - 50) : Bool) = true ↔ (0 : ℚ) < 80 - 50)) :=
  ⟨rfl, by norm_num, by norm_num,
    full_exit (stWithPos 100 50) "W1" "T" "USDC" 0 100 50 80 rfl
      (by norm_num) (by norm_num)⟩

/-! ### C2: degenerate sell guard -/

lemma realize_sell_guard_eq (st : St) (w t bm : String) (now : ℤ) (sq br : ℚ)
    (h : sq ≤ 0 ∨ br ≤ 0 ∨ (st.positions w t).qty ≤ 0) :
    realize_sell st w t sq br bm now = (upsert_position st w t (-sq) 0, 0) := by
  simp only [realize_sell, if_pos h]

/-- C2. When `sellQty <= 0`, `baseReceived <= 0` or the tracked quantity is
`<= 0`, `realize_sell` inserts no realized row, returns 0, and still applies
`applyDelta(wallet, token, -sellQty, 0)` to the position. -/
theorem degenerate_sell (st : St) (w t bm : String) (now : ℤ) (sq br : ℚ)
    (h : sq ≤ 0 ∨ br ≤ 0 ∨ (st.positions w t).qty ≤ 0) :
    realize_sell st w t sq br bm now = (upsert_position st w t (-sq) 0, 0)
    ∧ (realize_sell st w t sq br bm now).1.realized = st.realized
    ∧ (realize_sell st w t sq br bm now).1.positions w t
        = ⟨snap ((st.positions w t).qty + -sq),
           snap ((st.positions w t).cost_base + 0)⟩ := by
  have heq := realize_sell_guard_eq st w t bm now sq br h
  exact ⟨heq, by rw [heq, upsert_position_realized],
    by rw [heq]; exact upsert_position_self st w t (-sq) 0⟩

/-- Witness for C2: wallet `W2` sells 10 tokens of `T` with no prior BUY; no
realized row appears and the position becomes `(-10, 0)`. -/
theorem degenerate_sell_witness :
    ((10 : ℚ) ≤ 0 ∨ (7 : ℚ) ≤ 0 ∨ (emptySt.positions "W2" "T").qty ≤ 0)
    ∧ (realize_sell emptySt "W2" "T" 10 7 "USDC" 0
        = (upsert_position emptySt "W2" "T" (-10) 0, 0)
       ∧ (realize_sell emptySt "W2" "T" 10 7 "USDC" 0).1.realized = emptySt.realized
       ∧ (realize_sell emptySt "W2" "T" 10 7 "USDC" 0).1.positions "W2" "T"
           = ⟨snap ((emptySt.positions "W2" "T").qty + -10),
              snap ((emptySt.positions "W2" "T").cost_base + 0)⟩)
    ∧ (realize_sell emptySt "W2" "T" 10 7 "USDC" 0).1.positions "W2" "T"
        = (⟨-10, 0⟩ : Position) := by
  have h : (10 : ℚ) ≤ 0 ∨ (7 : ℚ) ≤ 0 ∨ (emptySt.positions "W2" "T").qty ≤ 0 :=
    Or.inr (Or.inr (by norm_num [emptySt]))
  refine ⟨h, degenerate_sell emptySt "W2" "T" "USDC" 0 10 7 h, ?_⟩
  have := (degenerate_sell emptySt "W2" "T" "USDC" 0 10 7 h).2.2
  rw [this]
  show (⟨snap (0 + -10), snap (0 + 0)⟩ : Position) = ⟨-10, 0⟩
  have h1 : snap (0 + -10 : ℚ) = -10 := by
    rw [zero_add]
    exact snap_of_eps_le (by rw [abs_neg, abs_of_nonneg] <;> norm_num [eps])
  rw [h1, add_zero, snap_zero]

/-! ### C3: idempotent ingestion -/

lemma realize_sell_swaps (st : St) (w t : String) (sq br : ℚ) (bm : String) (now : ℤ) :
    (realize_sell st w t sq br bm now).1.swaps = st.swaps := by
  simp only [realize_sell]
  split <;> rfl

lemma realize_sell_realized_len (st : St) (w t : String) (sq br : ℚ)
    (bm : String) (now : ℤ) :
    (realize_sell st w t sq br bm now).1.realized.length ≤ st.realized.length + 1 := by
  simp only [realize_sell]
  split
  · rw [upsert_position_realized]
    exact Nat.le_succ _
  · show ((upsert_position st w t _ _).realized ++ [_]).length ≤ _
    rw [List.length_append, upsert_position_realized]
    exact Nat.le_refl _

lemma ingest_dup (st : St) (row : SwapRow) (now : ℤ)
    (h : st.swaps.any (fun s => s.signature == row.signature) = true) :
    ingest st row now = (st, false) := by
  have hins : insert_swap st row = (st, false) := by simp [insert_swap, h]
  unfold ingest
  rw [hins]

lemma ingest_of_new (st : St) (row : SwapRow) (now : ℤ)
    (h : st.swaps.any (fun s => s.signature == row.signature) = false) :
    (ingest st row now).1.swaps = st.swaps ++ [row]
    ∧ (ingest st row now).1.realized.length ≤ st.realized.length + 1 := by
  have hins : insert_swap st row = ({ st with swaps := st.swaps ++ [row] }, true) := by
    simp [insert_swap, h]
  unfold ingest
  rw [hins]
  dsimp only
  by_cases hd : (row.direction == "BUY") = true
  · rw [if_pos hd]
    exact ⟨upsert_position_swaps _ _ _ _ _, Nat.le_succ _⟩
  · rw [if_neg hd]
    exact ⟨realize_sell_swaps _ _ _ _ _ _ _,
      realize_sell_realized_len _ _ _ _ _ _ _⟩

/-- C3. A record whose signature is already present is an idempotent no-op
(`inserted = false`, no state change); hence ingesting the same signature
twice leaves exactly one matching swap row, at most one new realized row, and
the second call has no effect. -/
theorem ingest_idempotent (st : St) (row : SwapRow) (now now' : ℤ)
    (h : st.swaps.any (fun s => s.signature == row.signature) = false) :
    (∀ st2 : St, st2.swaps.any (fun s => s.signature == row.signature) = true →
        ingest st2 row now' = (st2, false))
    ∧ ((ingest st row now).1.swaps.filter
          (fun s => s.signature == row.signature)).length = 1
    ∧ ingest (ingest st row now).1 row now' = ((ingest st row now).1, false)
    ∧ (ingest st row now).1.realized.length ≤ st.realized.length + 1 := by
  obtain ⟨hswaps, hlen⟩ := ingest_of_new st row now h
  have hfilter : st.swaps.filter (fun s => s.signature == row.signature) = [] := by
    rw [List.filter_eq_nil_iff]
    intro s hs
    have := List.any_eq_false.mp h s hs
    simpa using this
  have hany1 : (ingest st row now).1.swaps.any
      (fun s => s.signature == row.signature) = true := by
    rw [hswaps, List.any_append]
    simp
  refine ⟨fun st2 h2 => ingest_dup st2 row now' h2, ?_, ingest_dup _ row now' hany1, hlen⟩
  rw [hswaps, List.filter_append, hfilter]
  simp

/-- A concrete normalized swap record used by witnesses. -/
def row0 : SwapRow := ⟨"sig1", 0, "W1", "BUY", "USDC", 60, "T", 5⟩

/-- Witness for C3: ingesting `row0` into the empty store and again. -/
theorem ingest_idempotent_witness :
    (emptySt.swaps.any (fun s => s.signature == row0.signature) = false)
    ∧ ((∀ st2 : St, st2.swaps.any (fun s => s.signature == row0.signature) = true →
          ingest st2 row0 1 = (st2, false))
       ∧ ((ingest emptySt row0 0).1.swaps.filter
            (fun s => s.signature == row0.signature)).length = 1
       ∧ ingest (ingest emptySt row0 0).1 row0 1 = ((ingest emptySt row0 0).1, false)
       ∧ (ingest emptySt row0 0).1.realized.length ≤ emptySt.realized.length + 1) :=
  ⟨rfl, ingest_idempotent emptySt row0 0 1 rfl⟩

/-! ### C4: cost-basis conservation under BUY sequences -/

lemma snap_eq_zero {x : ℚ} (h : |x| < eps) : snap x = 0 := if_pos h

/-- C4 counterexample: two BUYs of base amount `3/5e9 = 6e-10` each (below the
1e-9 snap) leave the cost basis at 0, not at their sum `1.2e-9`. -/
theorem cost_conservation_cex :
    ((applyBuys emptySt "W" "T" [((1 : ℚ), 3 / 5000000000), (1, 3 / 5000000000)]).positions
        "W" "T").cost_base = 0
    ∧ ([((1 : ℚ), (3 : ℚ) / 5000000000), (1, 3 / 5000000000)].map Prod.snd).sum
        = 3 / 2500000000
    ∧ (3 / 2500000000 : ℚ) ≠ 0 := by
  have habs : |(3 : ℚ) / 5000000000| < eps := by
    rw [abs_of_nonneg] <;> norm_num [eps]
  have h1 : (upsert_position emptySt "W" "T" 1 (3 / 5000000000)).positions "W" "T"
      = ⟨1, 0⟩ := by
    rw [upsert_position_self]
    have e1 : ((emptySt.positions "W" "T").qty + 1 : ℚ) = 1 := zero_add 1
    have e2 : ((emptySt.positions "W" "T").cost_base + 3 / 5000000000 : ℚ)
        = 3 / 5000000000 := zero_add _
    rw [e1, e2, snap_of_eps_le (by rw [abs_one]; norm_num [eps]), snap_eq_zero habs]
  refine ⟨?_, by norm_num, by norm_num⟩
  show ((upsert_position (upsert_position emptySt "W" "T" 1 (3 / 5000000000))
      "W" "T" 1 (3 / 5000000000)).positions "W" "T").cost_base = 0
  rw [upsert_position_self, h1]
  show snap ((0 : ℚ) + 3 / 5000000000) = 0
  rw [zero_add]
  exact snap_eq_zero habs

lemma applyBuys_cost (w t : String) (buys : List (ℚ × ℚ)) :
    ∀ st : St, 0 ≤ (st.positions w t).cost_base →
      ((st.positions w t).cost_base = 0 ∨ eps ≤ (st.positions w t).cost_base) →
      (∀ b ∈ buys, 0 ≤ b.2 ∧ (b.2 = 0 ∨ eps ≤ b.2)) →
      ((applyBuys st w t buys).positions w t).cost_base
        = (st.positions w t).cost_base + (buys.map Prod.snd).sum := by
  induction buys with
  | nil =>
    intro st _ _ _
    simp [applyBuys]
  | cons b bs ih =>
    intro st hnn hinv hall
    obtain ⟨hb1, hb2⟩ := hall b (List.mem_cons_self _ _)
    have hcase : (st.positions w t).cost_base + b.2 = 0
        ∨ eps ≤ (st.positions w t).cost_base + b.2 := by
      rcases hinv with h0 | hc
      · rcases hb2 with hb0 | hbe
        · left; rw [h0, hb0, add_zero]
        · right; rw [h0, zero_add]; exact hbe
      · right; exact le_trans hc (le_add_of_nonneg_right hb1)
    have hstep : ((upsert_position st w t b.1 b.2).positions w t).cost_base
        = (st.positions w t).cost_base + b.2 := by
      rw [upsert_position_self]
      exact snap_eq_self_of_invariant hcase
    have hrec := ih (upsert_position st w t b.1 b.2)
      (by rw [hstep]; exact add_nonneg hnn hb1)
      (by rw [hstep]; exact hcase)
      (fun b' hb' => hall b' (List.mem_cons_of_mem _ hb'))
    show ((applyBuys (upsert_position st w t b.1 b.2) w t bs).positions w t).cost_base = _
    rw [hrec, hstep, List.map_cons, List.sum_cons, add_assoc]

/-- C4 amended. For a sequence of BUYs starting from an absent position, in
which every base amount is nonnegative and either zero or at least the 1e-9
snap threshold, the resulting cost basis equals the sum of the base amounts
spent. -/
theorem cost_conservation_amended (w t : String) (buys : List (ℚ × ℚ))
    (h : ∀ b ∈ buys, 0 ≤ b.2 ∧ (b.2 = 0 ∨ eps ≤ b.2)) :
    ((applyBuys emptySt w t buys).positions w t).cost_base
      = (buys.map Prod.snd).sum := by
  have hmain := applyBuys_cost w t buys emptySt (le_refl 0) (Or.inl rfl) h
  rw [hmain]
  show (0 : ℚ) + _ = _
  rw [zero_add]

/-- Witness for C4 amended: BUY 60 then 40 base leaves cost basis 100. -/
theorem cost_conservation_amended_witness :
    (∀ b ∈ [((2 : ℚ), (60 : ℚ)), (3, 40)], 0 ≤ b.2 ∧ (b.2 = 0 ∨ eps ≤ b.2))
    ∧ ((applyBuys emptySt "W1" "T" [((2 : ℚ), (60 : ℚ)), (3, 40)]).positions
        "W1" "T").cost_base
      = ([((2 : ℚ), (60 : ℚ)), (3, 40)].map Prod.snd).sum := by
  have h : ∀ b ∈ [((2 : ℚ), (60 : ℚ)), (3, 40)], 0 ≤ b.2 ∧ (b.2 = 0 ∨ eps ≤ b.2) := by
    intro b hb
    fin_cases hb <;> norm_num [eps]
  exact ⟨h, cost_conservation_amended "W1" "T" _ h⟩

/-! ### C5: partial (half) exit proportionality -/

lemma realize_sell_normal_pos (st : St) (w t bm : String) (now : ℤ) (q C sq br : ℚ)
    (hpos : st.positions w t = ⟨q, C⟩) (hq : 0 < q) (hsq : 0 < sq) (hbr : 0 < br) :
    (realize_sell st w t sq br bm now).1.positions w t
      = ⟨snap (q - sq), snap (C - C * min 1 (sq / q))⟩
    ∧ (realize_sell st w t sq br bm now).2 = br - C * min 1 (sq / q)
    ∧ (realize_sell st w t sq br bm now).1.realized
      = st.realized ++ [⟨now, w, t, br - C * min 1 (sq / q), bm,
          decide (0 < br - C * min 1 (sq / q))⟩] := by
  have hguard : ¬(sq ≤ 0 ∨ br ≤ 0 ∨ q ≤ 0) := by
    simp only [not_or, not_le]
    exact ⟨hsq, hbr, hq⟩
  simp only [realize_sell, hpos, if_neg hguard, upsert_position_realized]
  refine ⟨?_, by trivial, by trivial⟩
  rw [upsert_position_self, hpos]
  show (⟨snap (q + -sq), snap (C + -(C * min 1 (sq / q)))⟩ : Position) = _
  rw [← sub_eq_add_neg, ← sub_eq_add_neg]

/-- C5 counterexample: a position of quantity `eps = 1e-9` (cost 100) sold by
half has its remaining quantity snapped to 0, not left at `qty/2`. -/
theorem half_exit_cex :
    (stWithPos eps 100).positions "W" "T" = (⟨eps, 100⟩ : Position)
    ∧ (0 : ℚ) < eps ∧ (0 : ℚ) < 1
    ∧ ((realize_sell (stWithPos eps 100) "W" "T" (eps / 2) 1 "USDC" 0).1.positions
        "W" "T").qty ≠ eps / 2 := by
  refine ⟨rfl, eps_pos, one_pos, ?_⟩
  have hmain := (realize_sell_normal_pos (stWithPos eps 100) "W" "T" "USDC" 0
    eps 100 (eps / 2) 1 rfl eps_pos (half_pos eps_pos) one_pos).1
  rw [hmain]
  have he : eps - eps / 2 = eps / 2 := by ring
  show snap (eps - eps / 2) ≠ eps / 2
  rw [he, snap_eq_zero (by rw [abs_of_pos (half_pos eps_pos)]; norm_num [eps])]
  have := half_pos eps_pos
  exact fun hcontra => absurd hcontra.symm this.ne'

/-- C5 amended. For a position `(q, C)` with `q > 0`, provided the halves
survive the 1e-9 snap (`eps ≤ q/2`, and `C = 0` or `eps ≤ |C|/2`), selling
exactly `q/2` for `br > 0` removes exactly half the cost basis: the position
becomes `(q/2, C/2)`, the realized PnL is `br - C/2`, and the average cost
per unit is unchanged. -/
theorem half_exit_amended (st : St) (w t bm : String) (now : ℤ) (q C br : ℚ)
    (hpos : st.positions w t = ⟨q, C⟩) (hq : 0 < q) (hbr : 0 < br)
    (hq2 : eps ≤ q / 2) (hC : C = 0 ∨ eps ≤ |C| / 2) :
    (realize_sell st w t (q / 2) br bm now).1.positions w t = ⟨q / 2, C / 2⟩
    ∧ (realize_sell st w t (q / 2) br bm now).2 = br - C / 2
    ∧ (C / 2) / (q / 2) = C / q := by
  have hqne : q ≠ 0 := hq.ne'
  have hhalf : (q / 2) / q = 1 / 2 := by
    rw [div_div, mul_comm 2 q, ← div_div, div_self hqne]
  have hmin : min (1 : ℚ) ((q / 2) / q) = 1 / 2 := by
    rw [hhalf]
    exact min_eq_right (by norm_num)
  have hcp : C * min (1 : ℚ) ((q / 2) / q) = C / 2 := by
    rw [hmin]
    ring
  obtain ⟨hp, hr, _⟩ := realize_sell_normal_pos st w t bm now q C (q / 2) br
    hpos hq (half_pos hq) hbr
  refine ⟨?_, by rw [hr, hcp], ?_⟩
  · rw [hp, hcp]
    have e1 : q - q / 2 = q / 2 := by ring
    have e2 : C - C / 2 = C / 2 := by ring
    rw [e1, e2, snap_of_eps_le (by rw [abs_of_pos (lt_of_lt_of_le eps_pos hq2)]; exact hq2)]
    congr 1
    rcases hC with h0 | hce
    · rw [h0]
      show snap (0 / 2 : ℚ) = 0 / 2
      rw [zero_div, snap_zero]
    · refine snap_of_eps_le ?_
      rw [abs_div, abs_two]
      exact hce
  · field_simp

/-- Witness for C5 amended: position `(100, 50)`, sell 50 for 40: the
position becomes `(50, 25)` and the PnL is 15. -/
theorem half_exit_amended_witness :
    (stWithPos 100 50).positions "W1" "T" = (⟨100, 50⟩ : Position)
    ∧ (0 : ℚ) < 100 ∧ (0 : ℚ) < 40
    ∧ eps ≤ (100 : ℚ) / 2 ∧ ((50 : ℚ) = 0 ∨ eps ≤ |(50 : ℚ)| / 2)
    ∧ ((realize_sell (stWithPos 100 50) "W1" "T" ((100 : ℚ) / 2) 40 "USDC" 0).1.positions
          "W1" "T" = (⟨(100 : ℚ) / 2, (50 : ℚ) / 2⟩ : Position)
       ∧ (realize_sell (stWithPos 100 50) "W1" "T" ((100 : ℚ) / 2) 40 "USDC" 0).2
          = 40 - (50 : ℚ) / 2
       ∧ ((50 : ℚ) / 2) / ((100 : ℚ) / 2) = (50 : ℚ) / 100) := by
  have h4 : eps ≤ (100 : ℚ) / 2 := by norm_num [eps]
  have h5 : (50 : ℚ) = 0 ∨ eps ≤ |(50 : ℚ)| / 2 := by
    right
    rw [abs_of_nonneg] <;> norm_num [eps]
  exact ⟨rfl, by norm_num, by norm_num, h4, h5,
    half_exit_amended (stWithPos 100 50) "W1" "T" "USDC" 0 100 50 40 rfl
      (by norm_num) (by norm_num) h4 h5⟩

/-! ### Statistics lemmas shared by C6, C8 and C9 -/

lemma walletsOf_spec {rs : List RealizedRow} {w : String} :
    w ∈ walletsOf rs ↔ ∃ r ∈ rs, r.wallet = w := by
  simp [walletsOf]

lemma mem_grouped {rs : List RealizedRow} {g : GroupStats}
    (h : g ∈ (walletsOf rs).map (groupStats rs)) :
    g = groupStats rs g.wallet ∧ ∃ r ∈ rs, r.wallet = g.wallet := by
  obtain ⟨w, hw, hgw⟩ := List.mem_map.mp h
  cases hgw
  exact ⟨rfl, walletsOf_spec.mp hw⟩

lemma groupStats_self_mem {rs : List RealizedRow} {w : String}
    (h : ∃ r ∈ rs, r.wallet = w) :
    groupStats rs w ∈ (walletsOf rs).map (groupStats rs) :=
  List.mem_map.mpr ⟨w, walletsOf_spec.mpr h, rfl⟩

lemma one_le_trades {rs : List RealizedRow} {w : String}
    (h : ∃ r ∈ rs, r.wallet = w) : 1 ≤ (groupStats rs w).trades := by
  obtain ⟨r, hr, hw⟩ := h
  have hmem : r ∈ rs.filter (fun r => r.wallet == w) :=
    List.mem_filter.mpr ⟨hr, by simp [hw]⟩
  exact List.length_pos_of_mem hmem

lemma mem_get_top_wallets {rs : List RealizedRow} {mt lim : ℕ} {g : GroupStats}
    (hg : g ∈ get_top_wallets rs mt lim) :
    g ∈ (walletsOf rs).map (groupStats rs) ∧ mt ≤ g.trades := by
  unfold get_top_wallets at hg
  have h1 := List.take_subset _ _ hg
  rw [List.mem_insertionSort] at h1
  have h2 := List.mem_filter.mp h1
  exact ⟨h2.1, of_decide_eq_true h2.2⟩

lemma round_mono' {x y : ℚ} (h : x ≤ y) : round x ≤ round y := by
  rw [round_eq, round_eq]
  exact Int.floor_le_floor (by linarith)

lemma round2_nonneg {x : ℚ} (h : 0 ≤ x) : 0 ≤ round2 x := by
  unfold round2
  apply div_nonneg _ (by norm_num)
  have h1 : (0 : ℤ) ≤ round (x * 100) := by
    have h0 := round_mono' (by linarith : (0 : ℚ) ≤ x * 100)
    simp only [round_zero] at h0
    exact h0
  exact_mod_cast h1

lemma round2_le_hundred {x : ℚ} (h : x ≤ 100) : round2 x ≤ 100 := by
  unfold round2
  rw [div_le_iff₀ (by norm_num : (0 : ℚ) < 100)]
  have h1 : round (x * 100) ≤ round ((10000 : ℚ)) := round_mono' (by linarith)
  have h2 : round ((10000 : ℚ)) = 10000 := by
    have h := round_intCast (α := ℚ) 10000
    exact_mod_cast h
  rw [h2] at h1
  have h3 : ((round (x * 100) : ℤ) : ℚ) ≤ 10000 := by exact_mod_cast h1
  linarith

/-! ### C8: win-rate bounds -/

/-- C8. Every group produced by `get_top_wallets` has at least one trade,
its `wins`/`trades` are the group's true win and trade counts, its win rate
is `round(100*wins/trades, 2)`, and that win rate lies in `[0, 100]`. -/
theorem top_wallets_winrate (rs : List RealizedRow) (mt lim : ℕ) (g : GroupStats)
    (hg : g ∈ get_top_wallets rs mt lim) :
    1 ≤ g.trades
    ∧ g.wins = winsOf (rs.filter (fun r => r.wallet == g.wallet))
    ∧ g.trades = (rs.filter (fun r => r.wallet == g.wallet)).length
    ∧ g.win_rate_pct = round2 (100 * (g.wins : ℚ) / (g.trades : ℚ))
    ∧ 0 ≤ g.win_rate_pct ∧ g.win_rate_pct ≤ 100 := by
  obtain ⟨hmem, _⟩ := mem_get_top_wallets hg
  obtain ⟨hgeq, hex⟩ := mem_grouped hmem
  have htr : 1 ≤ g.trades := by
    rw [hgeq]
    exact one_le_trades hex
  have hwins_le : winsOf (rs.filter (fun r => r.wallet == g.wallet))
      ≤ (rs.filter (fun r => r.wallet == g.wallet)).length :=
    List.length_filter_le _ _
  have hfields : g.wins = winsOf (rs.filter (fun r => r.wallet == g.wallet))
      ∧ g.trades = (rs.filter (fun r => r.wallet == g.wallet)).length
      ∧ g.win_rate_pct = round2 (100 * (winsOf (rs.filter (fun r => r.wallet == g.wallet)) : ℚ)
          / ((rs.filter (fun r => r.wallet == g.wallet)).length : ℚ)) := by
    refine ⟨?_, ?_, ?_⟩ <;> (rw [hgeq]; rfl)
  obtain ⟨hwins, htrades, hrate⟩ := hfields
  have hrate' : g.win_rate_pct = round2 (100 * (g.wins : ℚ) / (g.trades : ℚ)) := by
    rw [hwins, htrades, hrate]
  have htrpos : (0 : ℚ) < (g.trades : ℚ) := by
    exact_mod_cast htr
  have hratio_nonneg : 0 ≤ 100 * (g.wins : ℚ) / (g.trades : ℚ) :=
    div_nonneg (by positivity) (le_of_lt htrpos)
  have hratio_le : 100 * (g.wins : ℚ) / (g.trades : ℚ) ≤ 100 := by
    rw [div_le_iff₀ htrpos]
    have hcast : (g.wins : ℚ) ≤ (g.trades : ℚ) := by
      rw [hwins, htrades]
      exact_mod_cast hwins_le
    nlinarith
  refine ⟨htr, hwins, htrades, hrate', ?_, ?_⟩
  · rw [hrate']
    exact round2_nonneg hratio_nonneg
  · rw [hrate']
    exact round2_le_hundred hratio_le

/-- A concrete realized trade used by witnesses. -/
def rrow1 : RealizedRow := ⟨0, "W1", "T", 30, "USDC", true⟩

/-- Witness for C8: the single-trade wallet `W1`. -/
theorem top_wallets_winrate_witness :
    (groupStats [rrow1] "W1" ∈ get_top_wallets [rrow1] 1 10)
    ∧ (1 ≤ (groupStats [rrow1] "W1").trades
       ∧ (groupStats [rrow1] "W1").wins
          = winsOf ([rrow1].filter (fun r => r.wallet == (groupStats [rrow1] "W1").wallet))
       ∧ (groupStats [rrow1] "W1").trades
          = ([rrow1].filter (fun r => r.wallet == (groupStats [rrow1] "W1").wallet)).length
       ∧ (groupStats [rrow1] "W1").win_rate_pct
          = round2 (100 * ((groupStats [rrow1] "W1").wins : ℚ)
              / ((groupStats [rrow1] "W1").trades : ℚ))
       ∧ 0 ≤ (groupStats [rrow1] "W1").win_rate_pct
       ∧ (groupStats [rrow1] "W1").win_rate_pct ≤ 100) := by
  have hg : groupStats [rrow1] "W1" ∈ get_top_wallets [rrow1] 1 10 := by
    simp [get_top_wallets, walletsOf, groupStats, rrow1, winsOf,
      List.insertionSort, List.orderedInsert]
  exact ⟨hg, top_wallets_winrate [rrow1] 1 10 _ hg⟩

/-! ### C9: window statistics -/

lemma mem_get_window_stats {rs : List RealizedRow} {now : ℤ} {days : ℕ}
    {g : GroupStats} :
    g ∈ get_window_stats rs now days ↔
      g ∈ (walletsOf (rs.filter (fun r => decide (now - (days : ℤ) * 86400 ≤ r.ts)))).map
        (groupStats (rs.filter (fun r => decide (now - (days : ℤ) * 86400 ≤ r.ts)))) := by
  simp only [get_window_stats]
  exact List.mem_insertionSort statOrder

lemma window_stats_wallet_iff (rs : List RealizedRow) (now : ℤ) (days : ℕ)
    (w : String) :
    (∃ g ∈ get_window_stats rs now days, g.wallet = w)
      ↔ (∃ r ∈ rs, r.wallet = w ∧ now - (days : ℤ) * 86400 ≤ r.ts) := by
  constructor
  · rintro ⟨g, hg, rfl⟩
    obtain ⟨_, r, hr, hrw⟩ := mem_grouped (mem_get_window_stats.mp hg)
    obtain ⟨hrs, hts⟩ := List.mem_filter.mp hr
    exact ⟨r, hrs, hrw, of_decide_eq_true hts⟩
  · rintro ⟨r, hr, rfl, hts⟩
    refine ⟨groupStats (rs.filter (fun r => decide (now - (days : ℤ) * 86400 ≤ r.ts)))
      r.wallet, ?_, rfl⟩
    refine mem_get_window_stats.mpr (groupStats_self_mem ⟨r, ?_, rfl⟩)
    exact List.mem_filter.mpr ⟨hr, decide_eq_true hts⟩

/-- C9. `get_window_stats` aggregates exactly the realized trades with
`ts >= now - days*86400`: a wallet appears iff it has such a trade (no trade
floor), every output group's trade count is the count of its in-window
trades, and a trade exactly on the boundary is included. -/
theorem window_stats_spec (rs : List RealizedRow) (now : ℤ) (days : ℕ) :
    (∀ w : String, (∃ g ∈ get_window_stats rs now days, g.wallet = w)
        ↔ (∃ r ∈ rs, r.wallet = w ∧ now - (days : ℤ) * 86400 ≤ r.ts))
    ∧ (∀ g ∈ get_window_stats rs now days,
        g.trades = (rs.filter (fun r =>
          r.wallet == g.wallet && decide (now - (days : ℤ) * 86400 ≤ r.ts))).length)
    ∧ (∀ r ∈ rs, r.ts = now - (days : ℤ) * 86400 →
        ∃ g ∈ get_window_stats rs now days, g.wallet = r.wallet) := by
  have hmemwin := window_stats_wallet_iff rs now days
  refine ⟨hmemwin, ?_, ?_⟩
  · intro g hg
    obtain ⟨hgeq, _⟩ := mem_grouped (mem_get_window_stats.mp hg)
    have htr : g.trades = ((rs.filter (fun r => decide (now - (days : ℤ) * 86400 ≤ r.ts))).filter
        (fun r => r.wallet == g.wallet)).length := by
      rw [hgeq]
      rfl
    rw [htr, List.filter_filter]
  · intro r hr hts
    exact (hmemwin r.wallet).mpr ⟨r, hr, rfl, le_of_eq hts.symm⟩

/-- A realized trade lying exactly on the 30-day window boundary. -/
def rrow2 : RealizedRow := ⟨-2592000, "W1", "T", 30, "USDC", true⟩

/-- Witness for C9: at `now = 0`, `days = 30`, the boundary trade `rrow2`
(timestamp exactly `-30*86400`) is included in the window aggregation. -/
theorem window_stats_spec_witness :
    (rrow2 ∈ [rrow2])
    ∧ (rrow2.ts = (0 : ℤ) - (30 : ℕ) * 86400)
    ∧ (∃ g ∈ get_window_stats [rrow2] 0 30, g.wallet = rrow2.wallet) := by
  have h1 : rrow2 ∈ [rrow2] := List.mem_singleton.mpr rfl
  have h2 : rrow2.ts = (0 : ℤ) - (30 : ℕ) * 86400 := by
    norm_num [rrow2]
  exact ⟨h1, h2, (window_stats_spec [rrow2] 0 30).2.2 rrow2 h1 h2⟩

/-! ### C6: discovery requires recent activity in both windows -/

/-- C6. A wallet appears in the discovery output only if it has an entry in
both the 30-day and the 90-day window statistics — equivalently, only if it
has a realized trade inside each window; lifetime performance alone never
suffices. -/
theorem discover_requires_windows (rs : List RealizedRow) (now : ℤ) (cfg : Config)
    (w : String)
    (hw : w ∈ (filter_long_term_winners rs now cfg).map (·.wallet)) :
    (∃ g ∈ get_window_stats rs now 30, g.wallet = w)
    ∧ (∃ g ∈ get_window_stats rs now 90, g.wallet = w)
    ∧ (∃ r ∈ rs, r.wallet = w ∧ now - ((30 : ℕ) : ℤ) * 86400 ≤ r.ts)
    ∧ (∃ r ∈ rs, r.wallet = w ∧ now - ((90 : ℕ) : ℤ) * 86400 ≤ r.ts) := by
  obtain ⟨win, hwin, hww⟩ := List.mem_map.mp hw
  simp only [filter_long_term_winners] at hwin
  obtain ⟨lr, hlr, hf⟩ := List.mem_filterMap.mp hwin
  by_cases h1 : lr.trades < cfg.life_min_trades ∨ lr.win_rate_pct < cfg.life_min_winrate
      ∨ lr.pnl_sum < cfg.life_min_pnl
  · rw [if_pos h1] at hf
    exact absurd hf (by simp)
  · rw [if_neg h1] at hf
    cases h30 : (get_window_stats rs now 30).find? (fun g => g.wallet == lr.wallet) with
    | none =>
      rw [h30] at hf
      cases h90 : (get_window_stats rs now 90).find? (fun g => g.wallet == lr.wallet) with
      | none => rw [h90] at hf; exact absurd hf (by simp)
      | some r90 => rw [h90] at hf; exact absurd hf (by simp)
    | some r30 =>
      rw [h30] at hf
      cases h90 : (get_window_stats rs now 90).find? (fun g => g.wallet == lr.wallet) with
      | none => rw [h90] at hf; exact absurd hf (by simp)
      | some r90 =>
        rw [h90] at hf
        dsimp only at hf
        by_cases h2 : cfg.d30_min_trades ≤ r30.trades
            ∧ cfg.d30_min_winrate ≤ r30.win_rate_pct
            ∧ cfg.d30_min_pnl ≤ r30.pnl_sum
            ∧ cfg.d90_min_trades ≤ r90.trades
            ∧ cfg.d90_min_winrate ≤ r90.win_rate_pct
            ∧ cfg.d90_min_pnl ≤ r90.pnl_sum
        · rw [if_pos h2] at hf
          have hwin_eq : win = ⟨lr.wallet, lr, r30, r90⟩ := (Option.some_inj.mp hf).symm
          have hwallet : w = lr.wallet := by
            rw [← hww, hwin_eq]
          subst hwallet
          have h30w : r30.wallet = lr.wallet := by
            have := List.find?_some h30
            exact eq_of_beq this
          have h90w : r90.wallet = lr.wallet := by
            have := List.find?_some h90
            exact eq_of_beq this
          have hw30 : ∃ g ∈ get_window_stats rs now 30, g.wallet = lr.wallet :=
            ⟨r30, List.mem_of_find?_eq_some h30, h30w⟩
          have hw90 : ∃ g ∈ get_window_stats rs now 90, g.wallet = lr.wallet :=
            ⟨r90, List.mem_of_find?_eq_some h90, h90w⟩
          exact ⟨hw30, hw90,
            (window_stats_wallet_iff rs now 30 lr.wallet).mp hw30,
            (window_stats_wallet_iff rs now 90 lr.wallet).mp hw90⟩
        · rw [if_neg h2] at hf
          exact absurd hf (by simp)

/-! ### Concrete evaluation lemmas for the discovery witnesses -/

lemma round2_intCast (n : ℤ) : round2 (n : ℚ) = (n : ℚ) := by
  unfold round2
  have h1 : (n : ℚ) * 100 = ((n * 100 : ℤ) : ℚ) := by push_cast; ring
  rw [h1, round_intCast]
  push_cast
  rw [mul_div_assoc]
  norm_num

lemma round2_hundred : round2 (100 : ℚ) = 100 := by
  have h := round2_intCast 100
  exact_mod_cast h

lemma round2_thirty : round2 (30 : ℚ) = 30 := by
  have h := round2_intCast 30
  exact_mod_cast h

/-- All-zero discovery thresholds, used to build concrete witnesses. -/
def cfg0 : Config := ⟨0, 0, 0, 0, 0, 0, 0, 0, 0⟩

/-- The group row of wallet `W1` over the single trade `rrow1`. -/
def gs1 : GroupStats := ⟨"W1", 1, 1, 100, 30, 1⟩

lemma groupStats_rrow1 : groupStats [rrow1] "W1" = gs1 := by
  unfold groupStats winsOf pnlSumOf gs1
  norm_num [rrow1, round2_hundred, round2_thirty]

lemma top_rrow1 : get_top_wallets [rrow1] 1 100000 = [gs1] := by
  unfold get_top_wallets walletsOf
  rw [show ([rrow1].map (·.wallet)).dedup = ["W1"] from rfl]
  rw [List.map_singleton, groupStats_rrow1]
  rw [show [gs1].filter (fun g => decide (1 ≤ g.trades)) = [gs1] from rfl]
  rw [show List.insertionSort statOrder [gs1] = [gs1] from rfl]
  exact List.take_of_length_le (by norm_num)

lemma window_rrow1 (days : ℕ) (h : [rrow1].filter
      (fun r => decide ((0 : ℤ) - (days : ℤ) * 86400 ≤ r.ts)) = [rrow1]) :
    get_window_stats [rrow1] 0 days = [gs1] := by
  simp only [get_window_stats]
  rw [h]
  unfold walletsOf
  rw [show ([rrow1].map (·.wallet)).dedup = ["W1"] from rfl]
  rw [List.map_singleton, groupStats_rrow1]
  rfl

lemma window30_rrow1 : get_window_stats [rrow1] 0 30 = [gs1] := by
  apply window_rrow1
  rw [List.filter_singleton]
  norm_num [rrow1]

lemma window90_rrow1 : get_window_stats [rrow1] 0 90 = [gs1] := by
  apply window_rrow1
  rw [List.filter_singleton]
  norm_num [rrow1]

/-- The winner record of `W1` over the single trade `rrow1`. -/
def win1 : Winner := ⟨"W1", gs1, gs1, gs1⟩

lemma winners_rrow1 : filter_long_term_winners [rrow1] 0 cfg0 = [win1] := by
  simp only [filter_long_term_winners]
  rw [top_rrow1, window30_rrow1, window90_rrow1]
  norm_num [cfg0, gs1, win1, List.filterMap_cons]

/-- Witness for C6: with all-zero thresholds and one winning trade at
`ts = 0`, wallet `W1` is discovered, and indeed has entries and trades in
both windows. -/
theorem discover_requires_windows_witness :
    ("W1" ∈ (filter_long_term_winners [rrow1] 0 cfg0).map (·.wallet))
    ∧ ((∃ g ∈ get_window_stats [rrow1] 0 30, g.wallet = "W1")
       ∧ (∃ g ∈ get_window_stats [rrow1] 0 90, g.wallet = "W1")
       ∧ (∃ r ∈ [rrow1], r.wallet = "W1" ∧ (0 : ℤ) - ((30 : ℕ) : ℤ) * 86400 ≤ r.ts)
       ∧ (∃ r ∈ [rrow1], r.wallet = "W1" ∧ (0 : ℤ) - ((90 : ℕ) : ℤ) * 86400 ≤ r.ts)) := by
  have hw : "W1" ∈ (filter_long_term_winners [rrow1] 0 cfg0).map (·.wallet) := by
    rw [winners_rrow1]
    exact List.mem_singleton.mpr rfl
  exact ⟨hw, discover_requires_windows [rrow1] 0 cfg0 "W1" hw⟩

/-! ### C7: announce-once discovery dedup -/

lemma mem_insertOrReplace_self (l : List String) (w : String) :
    w ∈ insertOrReplace l w := by
  unfold insertOrReplace
  split
  · assumption
  · simp

lemma mem_insertOrReplace_of_mem (l : List String) (w x : String) (h : x ∈ l) :
    x ∈ insertOrReplace l w := by
  unfold insertOrReplace
  split
  · exact h
  · exact List.mem_append_left _ h

lemma discovery_mark_announced (af : Bool) (s : St) (w : Winner) :
    (discovery_mark af s w).announced = insertOrReplace s.announced w.wallet := by
  unfold discovery_mark
  cases af <;> rfl

lemma foldl_mark_announced (af : Bool) :
    ∀ (l : List Winner) (s : St),
      (∀ x ∈ s.announced, x ∈ (l.foldl (discovery_mark af) s).announced)
      ∧ (∀ w ∈ l, w.wallet ∈ (l.foldl (discovery_mark af) s).announced) := by
  intro l
  induction l with
  | nil =>
    intro s
    exact ⟨fun x hx => hx, fun w hw => absurd hw (List.not_mem_nil _)⟩
  | cons a as ih =>
    intro s
    have hkeep : ∀ x ∈ s.announced, x ∈ (discovery_mark af s a).announced := by
      intro x hx
      rw [discovery_mark_announced]
      exact mem_insertOrReplace_of_mem _ _ _ hx
    have hself : a.wallet ∈ (discovery_mark af s a).announced := by
      rw [discovery_mark_announced]
      exact mem_insertOrReplace_self _ _
    refine ⟨fun x hx => ?_, fun w hw => ?_⟩
    · exact (ih (discovery_mark af s a)).1 x (hkeep x hx)
    · rcases List.mem_cons.mp hw with hwa | hw'
      · subst hwa
        exact (ih (discovery_mark af s w)).1 w.wallet hself
      · exact (ih (discovery_mark af s a)).2 w hw'

lemma discovery_job_out_announced (st : St) (now : ℤ) (cfg : Config) (af : Bool) :
    ∀ w ∈ (discovery_job st now cfg af).2, w ∈ (discovery_job st now cfg af).1.announced := by
  intro w hw
  simp only [discovery_job] at hw ⊢
  obtain ⟨x, hx, rfl⟩ := List.mem_map.mp hw
  exact (foldl_mark_announced af _ st).2 x hx

lemma discovery_job_out_fresh (st : St) (now : ℤ) (cfg : Config) (af : Bool) :
    ∀ w ∈ (discovery_job st now cfg af).2, w ∉ st.announced := by
  intro w hw
  simp only [discovery_job] at hw
  obtain ⟨x, hx, rfl⟩ := List.mem_map.mp hw
  exact of_decide_eq_true (List.mem_filter.mp hx).2

/-- C7. A wallet in the announced set is never emitted by `discovery_job`;
and once a wallet has been emitted by one call it is in the announced set of
the resulting state, so a second call — at any later time, with any
auto-follow flag — never emits it again. -/
theorem discovery_no_reemit (st : St) (now now' : ℤ) (cfg : Config) (af af' : Bool)
    (w : String) (hw : w ∈ (discovery_job st now cfg af).2) :
    (∀ (st2 : St) (n2 : ℤ) (c2 : Config) (a2 : Bool), ∀ x ∈ st2.announced,
        x ∉ (discovery_job st2 n2 c2 a2).2)
    ∧ w ∉ (discovery_job (discovery_job st now cfg af).1 now' cfg af').2 := by
  refine ⟨fun st2 n2 c2 a2 x hx hout => discovery_job_out_fresh st2 n2 c2 a2 x hout hx, ?_⟩
  intro hw2
  exact discovery_job_out_fresh _ _ _ _ w hw2
    (discovery_job_out_announced st now cfg af w hw)

/-- The ledger state holding the single realized trade `rrow1`. -/
def stR1 : St := { emptySt with realized := [rrow1] }

/-- Witness for C7: `W1` is emitted by the first discovery pass over `stR1`
and not emitted by the second. -/
theorem discovery_no_reemit_witness :
    ("W1" ∈ (discovery_job stR1 0 cfg0 false).2)
    ∧ ((∀ (st2 : St) (n2 : ℤ) (c2 : Config) (a2 : Bool), ∀ x ∈ st2.announced,
          x ∉ (discovery_job st2 n2 c2 a2).2)
       ∧ "W1" ∉ (discovery_job (discovery_job stR1 0 cfg0 false).1 0 cfg0 false).2) := by
  have hw : "W1" ∈ (discovery_job stR1 0 cfg0 false).2 := by
    simp only [discovery_job]
    rw [show stR1.realized = [rrow1] from rfl, winners_rrow1]
    rw [show [win1].filter (fun w => decide (w.wallet ∉ stR1.announced)) = [win1] from rfl]
    exact List.mem_singleton.mpr rfl
  exact ⟨hw, discovery_no_reemit stR1 0 0 cfg0 false false "W1" hw⟩

/-! ### C10: dust BUY strands its cost basis -/

/-- C10 counterexample: a BUY whose token amount and base amount are both
below 1e-9 has its base amount snapped away too — the position becomes
`(0, 0)`, not `(0, baseAmount)`. -/
theorem dust_buy_cex :
    (0 : ℚ) < 1 / 2000000000 ∧ (1 / 2000000000 : ℚ) < eps
    ∧ ((upsert_position emptySt "W" "T" (1 / 2000000000) (1 / 2000000000)).positions
        "W" "T").cost_base ≠ 1 / 2000000000 := by
  refine ⟨by norm_num, by norm_num [eps], ?_⟩
  rw [upsert_position_self]
  show snap ((0 : ℚ) + 1 / 2000000000) ≠ 1 / 2000000000
  rw [zero_add, snap_eq_zero (by rw [abs_of_nonneg] <;> norm_num [eps])]
  norm_num

lemma applySells_guard (w t bm : String) (now : ℤ) (baseAmt : ℚ)
    (hbinv : baseAmt = 0 ∨ eps ≤ baseAmt) :
    ∀ (sells : List (ℚ × ℚ)) (s : St),
      (∀ x ∈ sells, 0 ≤ x.1) →
      (s.positions w t).qty ≤ 0 →
      (s.positions w t).cost_base = baseAmt →
      (applySells s w t bm sells now).realized = s.realized
      ∧ ((applySells s w t bm sells now).positions w t).qty ≤ 0
      ∧ ((applySells s w t bm sells now).positions w t).cost_base = baseAmt := by
  intro sells
  induction sells with
  | nil =>
    intro s _ hq hc
    exact ⟨rfl, hq, hc⟩
  | cons x xs ih =>
    intro s hall hq hc
    have hx := hall x (List.mem_cons_self _ _)
    have hguard : x.1 ≤ 0 ∨ x.2 ≤ 0 ∨ (s.positions w t).qty ≤ 0 := Or.inr (Or.inr hq)
    have heq := realize_sell_guard_eq s w t bm now x.1 x.2 hguard
    have hqty' : ((upsert_position s w t (-x.1) 0).positions w t).qty ≤ 0 := by
      rw [upsert_position_self]
      exact snap_nonpos (by linarith)
    have hcost' : ((upsert_position s w t (-x.1) 0).positions w t).cost_base = baseAmt := by
      rw [upsert_position_self]
      show snap ((s.positions w t).cost_base + 0) = baseAmt
      rw [add_zero, hc]
      exact snap_eq_self_of_invariant hbinv
    obtain ⟨hr, hq2, hc2⟩ := ih (upsert_position s w t (-x.1) 0)
      (fun y hy => hall y (List.mem_cons_of_mem _ hy)) hqty' hcost'
    have hfold : applySells s w t bm (x :: xs) now
        = applySells (realize_sell s w t x.1 x.2 bm now).1 w t bm xs now := rfl
    rw [hfold, heq]
    exact ⟨hr.trans (upsert_position_realized s w t (-x.1) 0), hq2, hc2⟩

/-- C10 amended. A BUY on an empty position with `0 < tokenAmt < 1e-9` and a
base amount that itself survives the snap (zero, or at least 1e-9) yields the
position `(0, baseAmt)`; every subsequent sequence of SELLs with nonnegative
quantities then takes the degenerate guard: no realized row is ever inserted
and the stranded cost basis stays `baseAmt`. -/
theorem dust_buy_amended (st : St) (w t : String) (tokenAmt baseAmt : ℚ)
    (hempty : st.positions w t = ⟨0, 0⟩)
    (ht0 : 0 < tokenAmt) (ht1 : tokenAmt < eps)
    (hb0 : 0 ≤ baseAmt) (hb : baseAmt = 0 ∨ eps ≤ baseAmt) :
    (upsert_position st w t tokenAmt baseAmt).positions w t = ⟨0, baseAmt⟩
    ∧ ∀ (sells : List (ℚ × ℚ)) (bm : String) (now : ℤ),
        (∀ x ∈ sells, 0 ≤ x.1) →
        (applySells (upsert_position st w t tokenAmt baseAmt) w t bm sells now).realized
          = (upsert_position st w t tokenAmt baseAmt).realized
        ∧ ((applySells (upsert_position st w t tokenAmt baseAmt) w t bm sells
            now).positions w t).cost_base = baseAmt := by
  have hpos1 : (upsert_position st w t tokenAmt baseAmt).positions w t
      = ⟨0, baseAmt⟩ := by
    rw [upsert_position_self, hempty]
    show (⟨snap ((0 : ℚ) + tokenAmt), snap ((0 : ℚ) + baseAmt)⟩ : Position) = _
    rw [zero_add, zero_add,
      snap_eq_zero (by rw [abs_of_pos ht0]; exact ht1),
      snap_eq_self_of_invariant hb]
  refine ⟨hpos1, fun sells bm now hall => ?_⟩
  have hmain := applySells_guard w t bm now baseAmt hb sells
    (upsert_position st w t tokenAmt baseAmt) hall
    (by rw [hpos1]) (by rw [hpos1])
  exact ⟨hmain.1, hmain.2.2⟩

/-- Witness for C10 amended: token amount `5e-10`, base 5, then a SELL of 3
for 7: the position is `(0, 5)`, the sell realizes nothing, and the cost
basis remains 5. -/
theorem dust_buy_amended_witness :
    emptySt.positions "W" "T" = (⟨0, 0⟩ : Position)
    ∧ (0 : ℚ) < 1 / 2000000000 ∧ (1 / 2000000000 : ℚ) < eps
    ∧ (0 : ℚ) ≤ 5 ∧ ((5 : ℚ) = 0 ∨ eps ≤ 5)
    ∧ (∀ x ∈ [((3 : ℚ), (7 : ℚ))], 0 ≤ x.1)
    ∧ ((upsert_position emptySt "W" "T" (1 / 2000000000) 5).positions "W" "T"
        = (⟨0, 5⟩ : Position)
       ∧ (applySells (upsert_position emptySt "W" "T" (1 / 2000000000) 5) "W" "T"
            "USDC" [((3 : ℚ), (7 : ℚ))] 0).realized
          = (upsert_position emptySt "W" "T" (1 / 2000000000) 5).realized
       ∧ ((applySells (upsert_position emptySt "W" "T" (1 / 2000000000) 5) "W" "T"
            "USDC" [((3 : ℚ), (7 : ℚ))] 0).positions "W" "T").cost_base = 5) := by
  have h1 : emptySt.positions "W" "T" = (⟨0, 0⟩ : Position) := rfl
  have h2 : (0 : ℚ) < 1 / 2000000000 := by norm_num
  have h3 : (1 / 2000000000 : ℚ) < eps := by norm_num [eps]
  have h4 : (0 : ℚ) ≤ 5 := by norm_num
  have h5 : (5 : ℚ) = 0 ∨ eps ≤ 5 := Or.inr (by norm_num [eps])
  have h6 : ∀ x ∈ [((3 : ℚ), (7 : ℚ))], 0 ≤ x.1 := by
    intro x hx
    rw [List.mem_singleton] at hx
    subst hx
    norm_num
  have hmain := dust_buy_amended emptySt "W" "T" (1 / 2000000000) 5 h1 h2 h3 h4 h5
  exact ⟨h1, h2, h3, h4, h5, h6, hmain.1,
    (hmain.2 [((3 : ℚ), (7 : ℚ))] "USDC" 0 h6).1,
    (hmain.2 [((3 : ℚ), (7 : ℚ))] "USDC" 0 h6).2⟩

end WhaleBot
